import Mathlib

/-!
# Verification of core components of the `rand` repository

This file gives a shallow embedding of two subsystems of the repository and
proves properties of them:

* the weighted sampling tree (`rand_distr/src/weighted_tree.rs`,
  `WeightedTreeIndex`), embedded over `List Int` with a bounded weight range
  `[MIN, MAX]` standing for the checked arithmetic of a concrete integer
  weight type such as `i32`;
* the reseeding core (`src/rngs/reseeding.rs`, `ReseedingCore`) and the
  thread-local generator (`rand_trng/src/lib.rs`, `InnerState` / `ThreadRng`),
  embedded with explicit state passing over abstract inner-generator states.

Rust panics (out-of-bounds indexing, failed `unwrap`) are modelled as a
distinguished `panic` outcome; fallible operations return the source's typed
errors.
-/

set_option maxHeartbeats 1000000

namespace WeightedTree

/-- The error taxonomy of the weighted structures
(`WeightedError` in the source). -/
inductive WeightedError where
  | noItem
  | invalidWeight
  | allWeightsZero
  | tooMany
  | overflow
deriving DecidableEq, Repr

/-- Outcome of a mutating tree operation.  `ok` carries the new subtotals
array, `err` carries the typed error together with the subtotals array as it
is when the source returns the error, and `panic` models a Rust panic
(a failed `unwrap` on a checked addition). -/
inductive MutResult where
  | ok : List Int → MutResult
  | err : WeightedError → List Int → MutResult
  | panic : MutResult
deriving DecidableEq, Repr

/-- Outcome of `sample`: an index, a typed error, or a panic. -/
inductive SResult where
  | ok : Nat → SResult
  | err : WeightedError → SResult
  | panic : SResult
deriving DecidableEq, Repr

/-- `Weight::checked_add` for a bounded integer weight type whose
representable range is `[MIN, MAX]` (for `i32`: `[-2^31, 2^31 - 1]`):
the sum, or `none` exactly when the mathematical sum leaves the range. -/
def checkedAdd (MIN MAX a b : Int) : Option Int :=
  if MIN ≤ a + b ∧ a + b ≤ MAX then some (a + b) else none

/-- `WeightedTreeIndex::subtotal`: the subtotal stored at `index`, or zero
when `index` is out of range. -/
def subtotal (v : List Int) (index : Nat) : Int :=
  if index < v.length then v.getD index 0 else 0

/-- `WeightedTreeIndex::get`: reconstructs the own weight at `index` as
`subtotals[index] - subtotal(2*index+1) - subtotal(2*index+2)`.
`none` models the panic of the unchecked indexing `self.subtotals[index]`
when `index` is out of range. -/
def get (v : List Int) (index : Nat) : Option Int :=
  match v[index]? with
  | some w => some (w - subtotal v (2 * index + 1) - subtotal v (2 * index + 2))
  | none => none

/-- `WeightedTreeIndex::len`. -/
def len (v : List Int) : Nat := v.length

/-- `WeightedTreeIndex::is_empty`. -/
def isEmpty (v : List Int) : Bool := v.isEmpty

/-- `WeightedTreeIndex::can_sample`: true when the grand total
(`subtotals.first()`) is strictly positive. -/
def canSample (v : List Int) : Bool :=
  match v.head? with
  | some w => decide (0 < w)
  | none => false

/-- The ancestor-walk loop of `pop`:
`while index != 0 { index = (index - 1) / 2; subtotals[index] -= &weight }`,
entered with `index` equal to the post-removal length. -/
def popLoop (weight : Int) : List Int → Nat → List Int
  | v, 0 => v
  | v, i + 1 => popLoop weight (v.set (i / 2) (v.getD (i / 2) 0 - weight)) (i / 2)
termination_by _ i => i
decreasing_by omega

/-- `WeightedTreeIndex::pop`: removes the last weight, subtracting it from
every ancestor; returns the removed weight (or `none` on an empty tree)
together with the updated subtotals array. -/
def pop (v : List Int) : Option Int × List Int :=
  match v.getLast? with
  | none => (none, v)
  | some weight => (some weight, popLoop weight v.dropLast v.dropLast.length)

/-- The ancestor-walk loop shared by `push` and `update`:
`while index != 0 { index = (index - 1) / 2;
subtotals[index].checked_add_assign(&d).unwrap() }`.
`none` models the `unwrap` panic when a checked addition overflows. -/
def updateLoop (MIN MAX d : Int) : List Int → Nat → Option (List Int)
  | v, 0 => some v
  | v, i + 1 =>
    match checkedAdd MIN MAX (v.getD (i / 2) 0) d with
    | some s => updateLoop MIN MAX d (v.set (i / 2) s) (i / 2)
    | none => none
termination_by _ i => i
decreasing_by omega

/-- `WeightedTreeIndex::push`: rejects negative weights, pre-checks
`total + weight` against overflow on a clone of the total, then appends the
weight and propagates it through the ancestors of the new last index. -/
def push (MIN MAX : Int) (v : List Int) (weight : Int) : MutResult :=
  if weight < 0 then .err .invalidWeight v
  else
    let pre : Bool :=
      match v.head? with
      | some total => (checkedAdd MIN MAX total weight).isSome
      | none => true
    if pre then
      match updateLoop MIN MAX weight (v ++ [weight]) v.length with
      | some v2 => .ok v2
      | none => .panic
    else .err .overflow v

/-- `WeightedTreeIndex::update`: rejects negative weights, reads the current
own weight through `get` (panicking on an out-of-range index), returns at
once when the difference is zero, pre-checks `total + difference` against
overflow, then adds the difference into `subtotals[index]` and every
ancestor. -/
def update (MIN MAX : Int) (v : List Int) (index : Nat) (weight : Int) : MutResult :=
  if weight < 0 then .err .invalidWeight v
  else
    match get v index with
    | none => .panic
    | some current =>
      let difference := weight - current
      if difference = 0 then .ok v
      else
        let pre : Bool :=
          match v.head? with
          | some total => (checkedAdd MIN MAX total difference).isSome
          | none => true
        if pre then
          match checkedAdd MIN MAX (v.getD index 0) difference with
          | some s =>
            match updateLoop MIN MAX difference (v.set index s) index with
            | some v2 => .ok v2
            | none => .panic
          | none => .panic
        else .err .overflow v

/-- The construction loop of `new`: `for i in (1..n).rev()` , adding
`subtotals[i]` into `subtotals[(i - 1) / 2]` with checked addition.  The
counter argument is the index about to be processed. -/
def buildLoop (MIN MAX : Int) : List Int → Nat → Except WeightedError (List Int)
  | v, 0 => .ok v
  | v, i + 1 =>
    match checkedAdd MIN MAX (v.getD (i / 2) 0) (v.getD (i + 1) 0) with
    | some s => buildLoop MIN MAX (v.set (i / 2) s) i
    | none => .error .overflow

/-- `WeightedTreeIndex::new`: rejects any negative weight, then builds the
subtotals bottom-up from the weight sequence. -/
def new (MIN MAX : Int) (weights : List Int) : Except WeightedError (List Int) :=
  if weights.any (fun w => decide (w < 0)) then .error .invalidWeight
  else buildLoop MIN MAX weights (weights.length - 1)

/-- The descent loop of `sample`.  The source's `loop` has no bound; the
fuel argument makes the embedding total, `none` standing for divergence
(never reached from `sample`'s call site on a valid tree). -/
def sampleLoop (v : List Int) : Nat → Int → Nat → Option (Nat × Int)
  | 0, _, _ => none
  | fuel + 1, target, index =>
    let ls := subtotal v (2 * index + 1)
    if target < ls then sampleLoop v fuel target (2 * index + 1)
    else
      let t1 := target - ls
      let rs := subtotal v (2 * index + 2)
      if t1 < rs then sampleLoop v fuel t1 (2 * index + 2)
      else some (index, t1 - rs)

/-- `Distribution::sample for WeightedTreeIndex`, with the uniform draw from
`[0, total)` (the source's `rng.gen_range(W::ZERO..total_weight)`) passed as
the argument `draw`.  The two trailing `assert!`s of the source are modelled
by the final range check, `panic` standing for an assertion failure. -/
def sample (v : List Int) (draw : Int) : SResult :=
  if v.isEmpty then .err .noItem
  else
    let total := v.getD 0 0
    if total = 0 then .err .allWeightsZero
    else
      match sampleLoop v (v.length + 1) draw 0 with
      | some (index, t) =>
        if 0 ≤ t ∧ t < subtotal v index then .ok index else .panic
      | none => .panic

/-- The own weight at `index` as a total function; agrees with `get` at every
in-range index. -/
def getWeight (v : List Int) (index : Nat) : Int :=
  v.getD index 0 - subtotal v (2 * index + 1) - subtotal v (2 * index + 2)

/-- The valid states of the tree: every own weight is nonnegative.  Together
with the definition of `getWeight` this is exactly the documented invariant
`subtotals[i] == ownWeight(i) + subtotal(2i+1) + subtotal(2i+2)` with
nonnegative own weights. -/
def valid (v : List Int) : Prop :=
  ∀ i, i < v.length → 0 ≤ getWeight v i

/-- The proper ancestors of a tree index, nearest first:
`(i-1)/2, ((i-1)/2 - 1)/2, …, 0` for `i ≥ 1`, and `[]` for the root. -/
def ancs : Nat → List Nat
  | 0 => []
  | i + 1 => i / 2 :: ancs (i / 2)
termination_by i => i
decreasing_by omega

/-- The sum of the first `m` entries of a list (zero-padded):
used to state what the grand total of a freshly built tree is. -/
def sumTo (v : List Int) : Nat → Int
  | 0 => 0
  | m + 1 => sumTo v m + v.getD m 0

/-- Loop invariant of the construction loop `buildLoop`, for an original
weight list `w` and a counter `k` (indices `k+1 … n-1` already processed):
lengths agree, every entry equals its own weight plus the subtotals of its
already-processed children, and the entries up to the counter still sum to
the total weight. -/
def Inv (w v : List Int) (k : Nat) : Prop :=
  v.length = w.length ∧
  (∀ i, i < v.length →
    v.getD i 0 = w.getD i 0
      + (if k < 2 * i + 1 then subtotal v (2 * i + 1) else 0)
      + (if k < 2 * i + 2 then subtotal v (2 * i + 2) else 0)) ∧
  sumTo v (min (k + 1) v.length) = sumTo w w.length

end WeightedTree

namespace Reseeding

/-- The type parameters of a `ReseedingCore<R, Rsdr>` instantiation:
`σ` is the state of the inner block generator `R`, `ρ` the state of the
reseed source `Rsdr`, `β` the type of one results block.
`innerGenerate` is `R::generate`, `fromRng` is `R::from_rng(&mut reseeder)`
(threading the reseed source's state, `none` modelling an `Err` result), and
`numBytes` is `size_of_val(results)`, the byte size of one block. -/
structure Env (σ ρ β : Type) where
  innerGenerate : σ → σ × β
  fromRng : ρ → Option σ × ρ
  numBytes : Int

/-- `ReseedingCore<R, Rsdr>`.  The two `i64` counters are modelled as
unbounded integers: the source itself notes that generating `i64::MAX`
bytes is unreachable, and no arithmetic here wraps. -/
structure ReseedingCore (σ ρ : Type) where
  inner : σ
  reseeder : ρ
  threshold : Int
  bytes_until_reseed : Int
deriving DecidableEq, Repr

/-- `i64::MAX`. -/
def I64MAX : Int := 2 ^ 63 - 1

/-- `ReseedingCore::new`: clamps the requested `u64` threshold (`0 ≤ t`)
to `i64::MAX`, a request of `0` (never reseed by byte count) being
represented by `i64::MAX` as well. -/
def ReseedingCore.new (rng : σ) (t : Int) (reseeder : ρ) : ReseedingCore σ ρ :=
  let threshold := if t = 0 then I64MAX else if t ≤ I64MAX then t else I64MAX
  { inner := rng, reseeder := reseeder, threshold := threshold,
    bytes_until_reseed := threshold }

/-- `ReseedingCore::reseed`: draws a fresh inner generator from the reseed
source; on success installs it and resets the budget to `threshold`; on
failure (`Err` from `from_rng`) only the reseed source's state advances.
The boolean reports success (`Ok`) vs failure (`Err`). -/
def ReseedingCore.reseed (env : Env σ ρ β) (c : ReseedingCore σ ρ) :
    ReseedingCore σ ρ × Bool :=
  match env.fromRng c.reseeder with
  | (some r, rs) =>
    ({ c with inner := r, reseeder := rs, bytes_until_reseed := c.threshold }, true)
  | (none, rs) => ({ c with reseeder := rs }, false)

/-- `ReseedingCore::reseed_and_generate`: attempts a reseed, logging and
dropping any error, then unconditionally sets the budget to
`threshold - num_bytes` and generates a block from the (possibly stale)
inner generator. -/
def ReseedingCore.reseedAndGenerate (env : Env σ ρ β) (c : ReseedingCore σ ρ) :
    ReseedingCore σ ρ × β :=
  let c1 := (c.reseed env).1
  let c2 := { c1 with bytes_until_reseed := c1.threshold - env.numBytes }
  let g := env.innerGenerate c2.inner
  ({ c2 with inner := g.1 }, g.2)

/-- `BlockRngCore::generate for ReseedingCore`: takes the reseed path when
the budget is exhausted (`bytes_until_reseed ≤ 0`), otherwise decrements the
budget by the block size and generates from the inner generator. -/
def ReseedingCore.generate (env : Env σ ρ β) (c : ReseedingCore σ ρ) :
    ReseedingCore σ ρ × β :=
  if c.bytes_until_reseed ≤ 0 then c.reseedAndGenerate env
  else
    let g := env.innerGenerate c.inner
    ({ c with
       inner := g.1,
       bytes_until_reseed := c.bytes_until_reseed - env.numBytes }, g.2)

/-- `Clone for ReseedingCore`: duplicates the inner generator, reseed source
and threshold, but zeroes the remaining budget so that the clone reseeds on
first use. -/
def ReseedingCore.clone (c : ReseedingCore σ ρ) : ReseedingCore σ ρ :=
  { inner := c.inner, reseeder := c.reseeder, threshold := c.threshold,
    bytes_until_reseed := 0 }

end Reseeding

namespace Trng

/-- `RESEED_THRESHOLD` of `rand_trng` (64 KiB). -/
def RESEED_THRESHOLD : Int := 1024 * 64

/-- The collaborators of `rand_trng`: `os k` is the result of the
`(k+1)`-st call to `ChaCha12Rng::try_from_os_rng` (`none` = `Err`), and
`next32` / `next64` / `fill` are the generation methods of `ChaCha12Rng`,
`fill` taking the length of the destination buffer. -/
structure Env (σ : Type) where
  os : Nat → Option σ
  next32 : σ → σ × Nat
  next64 : σ → σ × Nat
  fill : σ → Nat → σ

/-- `InnerState` of `rand_trng`: the generator plus the `isize` byte budget
(modelled as an unbounded integer; the budget moves by at most
`isize::MAX` per call and is reset before it can stray far below zero). -/
structure InnerState (σ : Type) where
  rng : σ
  bytes_until_reseed : Int
deriving DecidableEq, Repr

/-- `InnerState::reseed`: resets the budget to the threshold *before*
attempting to draw a fresh generator from OS entropy, so the budget is
reset even when the attempt fails.  The `Nat` alongside the state is the
position in the OS entropy stream (how many `try_from_os_rng` calls have
been made); the boolean reports success. -/
def reseed (env : Env σ) (s : InnerState σ) (os : Nat) :
    (InnerState σ × Nat) × Bool :=
  let s1 : InnerState σ := { s with bytes_until_reseed := RESEED_THRESHOLD }
  match env.os os with
  | some r => (({ s1 with rng := r }, os + 1), true)
  | none => ((s1, os + 1), false)

/-- `InnerState::reseed_check`: when the budget is strictly negative,
attempt a reseed and ignore any error; then deduct the `n` bytes about to
be produced. -/
def reseedCheck (env : Env σ) (s : InnerState σ) (os : Nat) (n : Int) :
    InnerState σ × Nat :=
  let p := if s.bytes_until_reseed < 0 then (reseed env s os).1 else (s, os)
  ({ p.1 with bytes_until_reseed := p.1.bytes_until_reseed - n }, p.2)

/-- `RngCore::next_u32 for ThreadRng`: budget check first, then produce. -/
def nextU32 (env : Env σ) (s : InnerState σ) (os : Nat) :
    (InnerState σ × Nat) × Nat :=
  let p := reseedCheck env s os 4
  let g := env.next32 p.1.rng
  (({ p.1 with rng := g.1 }, p.2), g.2)

/-- `RngCore::next_u64 for ThreadRng`: budget check first, then produce. -/
def nextU64 (env : Env σ) (s : InnerState σ) (os : Nat) :
    (InnerState σ × Nat) × Nat :=
  let p := reseedCheck env s os 8
  let g := env.next64 p.1.rng
  (({ p.1 with rng := g.1 }, p.2), g.2)

/-- `RngCore::fill_bytes for ThreadRng` on a destination of length `n`:
budget check first, then fill. -/
def fillBytes (env : Env σ) (s : InnerState σ) (os : Nat) (n : Nat) :
    InnerState σ × Nat :=
  let p := reseedCheck env s os (n : Int)
  ({ p.1 with rng := env.fill p.1.rng n }, p.2)

end Trng

/-! ## Lemmas about lists and the weighted tree -/

namespace WeightedTree

lemma getD_zero_of_le {v : List Int} {i : Nat} (h : v.length ≤ i) :
    v.getD i 0 = 0 := by
  simp [List.getD_eq_getElem?_getD, List.getElem?_eq_none h]

lemma getD_set_self (v : List Int) (i : Nat) (a : Int) (h : i < v.length) :
    (v.set i a).getD i 0 = a := by
  simp [List.getD_eq_getElem?_getD, List.getElem?_set_self, h]

lemma getD_set_ne {v : List Int} {i j : Nat} (a : Int) (h : i ≠ j) :
    (v.set i a).getD j 0 = v.getD j 0 := by
  simp [List.getD_eq_getElem?_getD, List.getElem?_set_ne h]

lemma set_getD_self (v : List Int) (i : Nat) (h : i < v.length) :
    v.set i (v.getD i 0) = v := by
  apply List.ext_getElem?
  intro n
  by_cases hn : n = i
  · subst hn
    rw [List.getElem?_set_self (by simpa using h)]
    simp [List.getD_eq_getElem?_getD, List.getElem?_eq_getElem h]
  · simp [List.getElem?_set_ne (Ne.symm hn)]

lemma getD_append_left {v : List Int} {i : Nat} (a : Int) (h : i < v.length) :
    (v ++ [a]).getD i 0 = v.getD i 0 := by
  simp [List.getD_eq_getElem?_getD, List.getElem?_append_left h]

lemma getD_append_last (v : List Int) (a : Int) :
    (v ++ [a]).getD v.length 0 = a := by
  simp [List.getD_eq_getElem?_getD]

lemma dropLast_set (v : List Int) (i : Nat) (a : Int) :
    (v.set i a).dropLast = v.dropLast.set i a := by
  rw [List.dropLast_eq_take, List.dropLast_eq_take, List.length_set, List.set_take]

lemma subtotal_eq_getD (v : List Int) (i : Nat) : subtotal v i = v.getD i 0 := by
  unfold subtotal
  by_cases h : i < v.length
  · simp [h]
  · rw [if_neg h, getD_zero_of_le (Nat.le_of_not_lt h)]

lemma subtotal_lt_length {v : List Int} {i : Nat} (h : 0 < subtotal v i) :
    i < v.length := by
  by_contra hc
  rw [subtotal_eq_getD, getD_zero_of_le (by omega)] at h
  omega

lemma get_eq_some {v : List Int} {i : Nat} (h : i < v.length) :
    get v i = some (getWeight v i) := by
  unfold get getWeight
  rw [List.getElem?_eq_getElem h]
  simp [List.getD_eq_getElem?_getD, List.getElem?_eq_getElem h]

lemma get_eq_none {v : List Int} {i : Nat} (h : v.length ≤ i) :
    get v i = none := by
  unfold get
  rw [List.getElem?_eq_none h]

end WeightedTree

namespace WeightedTree

lemma checkedAdd_some {MIN MAX a b s : Int} (h : checkedAdd MIN MAX a b = some s) :
    s = a + b ∧ MIN ≤ a + b ∧ a + b ≤ MAX := by
  unfold checkedAdd at h
  split at h
  · next hc =>
      injection h with h1
      exact ⟨h1.symm, hc⟩
  · cases h

lemma checkedAdd_eq_some {MIN MAX a b : Int} (h1 : MIN ≤ a + b) (h2 : a + b ≤ MAX) :
    checkedAdd MIN MAX a b = some (a + b) := by
  unfold checkedAdd
  rw [if_pos ⟨h1, h2⟩]

lemma valid_subtotal_nonneg {v : List Int} (hv : valid v) : ∀ i, 0 ≤ subtotal v i := by
  have key : ∀ m i, v.length - i ≤ m → 0 ≤ subtotal v i := by
    intro m
    induction m with
    | zero =>
      intro i hi
      rw [subtotal_eq_getD, getD_zero_of_le (by omega)]
    | succ m ih =>
      intro i hi
      by_cases h : i < v.length
      · have hw := hv i h
        unfold getWeight at hw
        have h1 : 0 ≤ subtotal v (2 * i + 1) := ih (2 * i + 1) (by omega)
        have h2 : 0 ≤ subtotal v (2 * i + 2) := ih (2 * i + 2) (by omega)
        rw [subtotal_eq_getD]
        omega
      · rw [subtotal_eq_getD, getD_zero_of_le (by omega)]
  intro i
  exact key v.length i (by omega)

lemma valid_getD_nonneg {v : List Int} (hv : valid v) (i : Nat) : 0 ≤ v.getD i 0 := by
  have h := valid_subtotal_nonneg hv i
  rwa [subtotal_eq_getD] at h

lemma ancs_mem_lt : ∀ i p, p ∈ ancs i → p < i := by
  intro i
  induction i using Nat.strong_induction_on with
  | _ i ih =>
    match i with
    | 0 =>
      intro p hp
      simp [ancs] at hp
    | i + 1 =>
      intro p hp
      rw [ancs] at hp
      rcases List.mem_cons.mp hp with h | h
      · omega
      · have := ih (i / 2) (by omega) p h
        omega

lemma zero_mem_ancs : ∀ i, 1 ≤ i → (0 : Nat) ∈ ancs i := by
  intro i
  induction i using Nat.strong_induction_on with
  | _ i ih =>
    match i with
    | 0 =>
      intro h
      omega
    | i + 1 =>
      intro _
      rw [ancs]
      rcases Nat.eq_zero_or_pos (i / 2) with h | h
      · rw [h]
        exact List.mem_cons_self 0 (ancs 0)
      · exact List.mem_cons_of_mem _ (ih (i / 2) (by omega) h)

lemma valid_anc_le {v : List Int} (hv : valid v) :
    ∀ i, i < v.length → ∀ p ∈ ancs i, v.getD i 0 ≤ v.getD p 0 := by
  intro i
  induction i using Nat.strong_induction_on with
  | _ i ih =>
    match i with
    | 0 =>
      intro _ p hp
      simp [ancs] at hp
    | i + 1 =>
      intro hlen p hp
      have hstep : v.getD (i + 1) 0 ≤ v.getD (i / 2) 0 := by
        have hw := hv (i / 2) (by omega)
        unfold getWeight at hw
        rw [subtotal_eq_getD, subtotal_eq_getD] at hw
        have h1 : 0 ≤ v.getD (2 * (i / 2) + 1) 0 := valid_getD_nonneg hv _
        have h2 : 0 ≤ v.getD (2 * (i / 2) + 2) 0 := valid_getD_nonneg hv _
        have hchild : 2 * (i / 2) + 1 = i + 1 ∨ 2 * (i / 2) + 2 = i + 1 := by omega
        rcases hchild with h | h
        · rw [h] at hw
          omega
        · rw [h] at hw
          omega
      rw [ancs] at hp
      rcases List.mem_cons.mp hp with h | h
      · exact h ▸ hstep
      · exact le_trans hstep (ih (i / 2) (by omega) (by omega) p h)

lemma valid_le_root {v : List Int} (hv : valid v) {i : Nat} (h : i < v.length) :
    v.getD i 0 ≤ v.getD 0 0 := by
  rcases Nat.eq_zero_or_pos i with h0 | h0
  · simp [h0]
  · exact valid_anc_le hv i h 0 (zero_mem_ancs i h0)

end WeightedTree

namespace WeightedTree

lemma updateLoop_frame {MIN MAX d : Int} :
    ∀ i v v2, updateLoop MIN MAX d v i = some v2 →
      v2.length = v.length ∧ ∀ j, i ≤ j → v2.getD j 0 = v.getD j 0 := by
  intro i
  induction i using Nat.strong_induction_on with
  | _ i ih =>
    match i with
    | 0 =>
      intro v v2 h
      rw [updateLoop] at h
      injection h with h1
      subst h1
      exact ⟨rfl, fun j _ => rfl⟩
    | i + 1 =>
      intro v v2 h
      rw [updateLoop] at h
      split at h
      · next s hc =>
          obtain ⟨hl, hf⟩ := ih (i / 2) (by omega) _ _ h
          refine ⟨by rw [hl, List.length_set], fun j hj => ?_⟩
          rw [hf j (by omega), getD_set_ne _ (by omega)]
      · cases h

lemma updateLoop_ok {MIN MAX d : Int} :
    ∀ i v, (∀ p ∈ ancs i, MIN ≤ v.getD p 0 + d ∧ v.getD p 0 + d ≤ MAX) →
      ∃ v2, updateLoop MIN MAX d v i = some v2 := by
  intro i
  induction i using Nat.strong_induction_on with
  | _ i ih =>
    match i with
    | 0 =>
      intro v _
      exact ⟨v, by rw [updateLoop]⟩
    | i + 1 =>
      intro v hb
      have hmem : i / 2 ∈ ancs (i + 1) := by
        rw [ancs]
        exact List.mem_cons_self _ _
      obtain ⟨hlo, hhi⟩ := hb (i / 2) hmem
      have hc : checkedAdd MIN MAX (v.getD (i / 2) 0) d
          = some (v.getD (i / 2) 0 + d) := checkedAdd_eq_some hlo hhi
      have hb2 : ∀ p ∈ ancs (i / 2),
          MIN ≤ (v.set (i / 2) (v.getD (i / 2) 0 + d)).getD p 0 + d ∧
          (v.set (i / 2) (v.getD (i / 2) 0 + d)).getD p 0 + d ≤ MAX := by
        intro p hp
        have hlt := ancs_mem_lt (i / 2) p hp
        rw [getD_set_ne _ (by omega)]
        refine hb p ?_
        rw [ancs]
        exact List.mem_cons_of_mem _ hp
      obtain ⟨v2, hv2⟩ := ih (i / 2) (by omega) _ hb2
      refine ⟨v2, ?_⟩
      rw [updateLoop, hc]
      exact hv2

lemma popLoop_set_comm {d a : Int} :
    ∀ i v q, i ≤ q → popLoop d (v.set q a) i = (popLoop d v i).set q a := by
  intro i
  induction i using Nat.strong_induction_on with
  | _ i ih =>
    match i with
    | 0 =>
      intro v q _
      rw [popLoop, popLoop]
    | i + 1 =>
      intro v q hq
      rw [popLoop, popLoop]
      rw [getD_set_ne _ (by omega), List.set_comm _ _ _ (by omega)]
      exact ih (i / 2) (by omega) _ q (by omega)

lemma popLoop_length {d : Int} :
    ∀ i v, (popLoop d v i).length = v.length := by
  intro i
  induction i using Nat.strong_induction_on with
  | _ i ih =>
    match i with
    | 0 =>
      intro v
      rw [popLoop]
    | i + 1 =>
      intro v
      rw [popLoop, ih (i / 2) (by omega), List.length_set]

lemma popLoop_inverse {MIN MAX d : Int} :
    ∀ i v v2, i < v.length → updateLoop MIN MAX d v i = some v2 →
      popLoop d v2 i = v := by
  intro i
  induction i using Nat.strong_induction_on with
  | _ i ih =>
    match i with
    | 0 =>
      intro v v2 _ h
      rw [updateLoop] at h
      injection h with h1
      subst h1
      rw [popLoop]
    | i + 1 =>
      intro v v2 hlen h
      rw [updateLoop] at h
      split at h
      · next s hc =>
          obtain ⟨hs, _, _⟩ := checkedAdd_some hc
          subst hs
          have hp2 : i / 2 < v.length := by omega
          have hfr := updateLoop_frame (i / 2) _ _ h
          have hv2p : v2.getD (i / 2) 0 = v.getD (i / 2) 0 + d := by
            rw [hfr.2 (i / 2) le_rfl, getD_set_self _ _ _ hp2]
          have hih := ih (i / 2) (by omega) _ _ (by simpa using hp2) h
          rw [popLoop, hv2p]
          have he : v.getD (i / 2) 0 + d - d = v.getD (i / 2) 0 := by ring
          rw [he, popLoop_set_comm (i / 2) v2 (i / 2) le_rfl, hih,
            List.set_set, set_getD_self _ _ hp2]
      · cases h

lemma popLoop_dropLast {d : Int} :
    ∀ i v, popLoop d v.dropLast i = (popLoop d v i).dropLast := by
  intro i
  induction i using Nat.strong_induction_on with
  | _ i ih =>
    match i with
    | 0 =>
      intro v
      rw [popLoop, popLoop]
    | i + 1 =>
      intro v
      rw [popLoop, popLoop, ← ih (i / 2) (by omega), dropLast_set]
      by_cases h : i / 2 < v.length - 1
      · congr 2
        rw [List.getD_eq_getElem?_getD, List.getD_eq_getElem?_getD,
          List.getElem?_dropLast, if_pos h]
      · rw [List.set_eq_of_length_le (by simp; omega),
          List.set_eq_of_length_le (by simp; omega)]

end WeightedTree

namespace WeightedTree

lemma sumTo_set_of_le {v : List Int} {p : Nat} {s : Int} :
    ∀ m, m ≤ p → sumTo (v.set p s) m = sumTo v m := by
  intro m
  induction m with
  | zero => intro _; rfl
  | succ m ih =>
    intro h
    simp only [sumTo]
    rw [ih (by omega), getD_set_ne _ (by omega)]

lemma sumTo_set_of_lt {v : List Int} {s : Int} :
    ∀ m p, p < m → p < v.length → sumTo (v.set p s) m = sumTo v m + s - v.getD p 0 := by
  intro m
  induction m with
  | zero =>
    intro p h
    omega
  | succ m ih =>
    intro p h hp
    by_cases hpm : p = m
    · subst hpm
      simp only [sumTo]
      rw [sumTo_set_of_le p le_rfl, getD_set_self _ _ _ hp]
      ring
    · simp only [sumTo]
      rw [ih p (by omega) hp, getD_set_ne _ (by omega)]
      ring

lemma Inv_init {w : List Int} (h : w ≠ []) : Inv w w (w.length - 1) := by
  have hL : 0 < w.length := List.length_pos.mpr h
  refine ⟨rfl, ?_, ?_⟩
  · intro i hi
    have h1 : (if w.length - 1 < 2 * i + 1 then subtotal w (2 * i + 1) else 0) = 0 := by
      split
    
      · next hc => rw [subtotal_eq_getD, getD_zero_of_le (by omega)]
      · rfl
    have h2 : (if w.length - 1 < 2 * i + 2 then subtotal w (2 * i + 2) else 0) = 0 := by
      split
      · next hc => rw [subtotal_eq_getD, getD_zero_of_le (by omega)]
      · rfl
    rw [h1, h2]
    ring
  · have he : w.length - 1 + 1 = w.length := by omega
    rw [he, min_self]

lemma Inv_step {w v : List Int} {k : Nat} (hk : k + 1 < v.length) (hInv : Inv w v (k + 1)) :
    Inv w (v.set (k / 2) (v.getD (k / 2) 0 + v.getD (k + 1) 0)) k := by
  obtain ⟨hlen, h2, h3⟩ := hInv
  have hpk : k / 2 ≤ k := Nat.div_le_self k 2
  have hpl : k / 2 < v.length := by omega
  refine ⟨by rw [List.length_set, hlen], ?_, ?_⟩
  · intro i hi
    rw [List.length_set] at hi
    simp only [subtotal_eq_getD] at h2 ⊢
    by_cases hip : i = k / 2
    · subst hip
      rw [getD_set_self _ _ _ hpl]
      have h2p := h2 (k / 2) hpl
      rw [getD_set_ne _ (by omega), getD_set_ne _ (by omega)]
      have hpar : 2 * (k / 2) + 1 = k + 1 ∨ 2 * (k / 2) + 1 = k := by omega
      rcases hpar with hpar | hpar
      · rw [if_neg (by omega), if_pos (by omega)] at h2p
        rw [if_pos (by omega), if_pos (by omega), hpar]
        omega
      · rw [if_neg (by omega), if_neg (by omega)] at h2p
        have he2 : 2 * (k / 2) + 2 = k + 1 := by omega
        rw [if_neg (by omega), if_pos (by omega), he2]
        omega
    · have h2i := h2 i hi
      have hne1 : 2 * i + 1 ≠ k + 1 := by omega
      have hne2 : 2 * i + 2 ≠ k + 1 := by omega
      rw [getD_set_ne _ (fun he => hip he.symm)]
      have e1 : (if k < 2 * i + 1
            then (v.set (k / 2) (v.getD (k / 2) 0 + v.getD (k + 1) 0)).getD (2 * i + 1) 0
            else 0)
          = (if k + 1 < 2 * i + 1 then v.getD (2 * i + 1) 0 else 0) := by
        by_cases hc : k < 2 * i + 1
        · rw [if_pos hc, if_pos (by omega), getD_set_ne _ (by omega)]
        · rw [if_neg hc, if_neg (by omega)]
      have e2 : (if k < 2 * i + 2
            then (v.set (k / 2) (v.getD (k / 2) 0 + v.getD (k + 1) 0)).getD (2 * i + 2) 0
            else 0)
          = (if k + 1 < 2 * i + 2 then v.getD (2 * i + 2) 0 else 0) := by
        by_cases hc : k < 2 * i + 2
        · rw [if_pos hc, if_pos (by omega), getD_set_ne _ (by omega)]
        · rw [if_neg hc, if_neg (by omega)]
      rw [e1, e2]
      exact h2i
  · have hminL : min (k + 1) (v.set (k / 2) (v.getD (k / 2) 0 + v.getD (k + 1) 0)).length
        = k + 1 := by
      rw [List.length_set]
      omega
    have hminR : min (k + 1 + 1) v.length = k + 2 := by omega
    rw [hminR] at h3
    rw [hminL, sumTo_set_of_lt (k + 1) (k / 2) (by omega) hpl]
    have he : sumTo v (k + 2) = sumTo v (k + 1) + v.getD (k + 1) 0 := rfl
    omega

lemma buildLoop_inv {MIN MAX : Int} {w : List Int} :
    ∀ k v v2, k < v.length → buildLoop MIN MAX v k = .ok v2 → Inv w v k → Inv w v2 0 := by
  intro k
  induction k with
  | zero =>
    intro v v2 _ h hInv
    rw [buildLoop] at h
    injection h with h1
    subst h1
    exact hInv
  | succ k ih =>
    intro v v2 hk h hInv
    rw [buildLoop] at h
    split at h
    · next s hc =>
        obtain ⟨hs, _, _⟩ := checkedAdd_some hc
        subst hs
        exact ih _ v2 (by rw [List.length_set]; omega) h (Inv_step hk hInv)
    · cases h

lemma buildLoop_le_MAX {MIN MAX : Int} :
    ∀ k v v2, buildLoop MIN MAX v k = .ok v2 →
      (∀ i, i < v.length → v.getD i 0 ≤ MAX) →
      ∀ i, i < v2.length → v2.getD i 0 ≤ MAX := by
  intro k
  induction k with
  | zero =>
    intro v v2 h hb
    rw [buildLoop] at h
    injection h with h1
    subst h1
    exact hb
  | succ k ih =>
    intro v v2 h hb
    rw [buildLoop] at h
    split at h
    · next s hc =>
        obtain ⟨hs, _, hhi⟩ := checkedAdd_some hc
        refine ih _ _ h ?_
        intro i hi
        rw [List.length_set] at hi
        by_cases hip : i = k / 2
        · subst hip
          rw [getD_set_self _ _ _ hi, hs]
          exact hhi
        · rw [getD_set_ne _ (fun he => hip he.symm)]
          exact hb i hi
    · cases h

lemma buildLoop_error {MIN MAX : Int} :
    ∀ k v e, buildLoop MIN MAX v k = .error e → e = .overflow := by
  intro k
  induction k with
  | zero =>
    intro v e h
    rw [buildLoop] at h
    cases h
  | succ k ih =>
    intro v e h
    rw [buildLoop] at h
    split at h
    · next s hc => exact ih _ e h
    · injection h with h1
      exact h1.symm

lemma new_nonneg {MIN MAX : Int} {w v : List Int} (h : new MIN MAX w = .ok v) :
    ∀ x ∈ w, 0 ≤ x := by
  unfold new at h
  split at h
  · cases h
  · next hany =>
      intro x hx
      by_contra hneg
      exact hany (List.any_eq_true.mpr ⟨x, hx, decide_eq_true (by omega)⟩)

lemma new_Inv {MIN MAX : Int} {w v : List Int} (h : new MIN MAX w = .ok v) : Inv w v 0 := by
  by_cases hw : w = []
  · subst hw
    have hnil : new MIN MAX ([] : List Int) = Except.ok ([] : List Int) := rfl
    rw [hnil] at h
    injection h with h1
    subst h1
    exact ⟨rfl, by intro i hi; simp at hi, rfl⟩
  · unfold new at h
    split at h
    · cases h
    · exact buildLoop_inv (w.length - 1) w v
        (by have := List.length_pos.mpr hw; omega) h (Inv_init hw)

lemma new_length {MIN MAX : Int} {w v : List Int} (h : new MIN MAX w = .ok v) :
    v.length = w.length := (new_Inv h).1

lemma new_getWeight {MIN MAX : Int} {w v : List Int} (h : new MIN MAX w = .ok v) :
    ∀ i, i < w.length → getWeight v i = w.getD i 0 := by
  obtain ⟨hlen, h2, _⟩ := new_Inv h
  intro i hi
  have h2i := h2 i (by omega)
  rw [if_pos (by omega), if_pos (by omega)] at h2i
  unfold getWeight
  omega

lemma new_valid {MIN MAX : Int} {w v : List Int} (h : new MIN MAX w = .ok v) : valid v := by
  intro i hi
  rw [new_length h] at hi
  rw [new_getWeight h i hi]
  refine new_nonneg h _ ?_
  rw [List.getD_eq_getElem?_getD, List.getElem?_eq_getElem hi]
  exact List.getElem_mem hi

lemma new_root {MIN MAX : Int} {w v : List Int} (hw : w ≠ [])
    (h : new MIN MAX w = .ok v) : v.getD 0 0 = sumTo w w.length := by
  obtain ⟨hlen, _, h3⟩ := new_Inv h
  have hL : 0 < w.length := List.length_pos.mpr hw
  have hm : min (0 + 1) v.length = 1 := by omega
  rw [hm] at h3
  have he : sumTo v 1 = sumTo v 0 + v.getD 0 0 := rfl
  rw [he] at h3
  simpa [sumTo] using h3

end WeightedTree

namespace WeightedTree

lemma getLast?_eq_getD {v : List Int} (h : 0 < v.length) :
    v.getLast? = some (v.getD (v.length - 1) 0) := by
  rw [List.getLast?_eq_getElem?, List.getD_eq_getElem?_getD,
    List.getElem?_eq_getElem (by omega)]
  rfl

lemma sampleLoop_spec {v : List Int} (hv : valid v) :
    ∀ fuel index target, index < v.length → 0 ≤ target → target < subtotal v index →
      v.length - index ≤ fuel →
      ∃ i t, sampleLoop v fuel target index = some (i, t) ∧
        i < v.length ∧ 0 ≤ t ∧ t < getWeight v i := by
  intro fuel
  induction fuel with
  | zero =>
    intro index target hidx _ _ hfuel
    omega
  | succ fuel ih =>
    intro index target hidx htn htu hfuel
    simp only [sampleLoop]
    by_cases hL : target < subtotal v (2 * index + 1)
    · have hpos : 0 < subtotal v (2 * index + 1) := by omega
      have hlt := subtotal_lt_length hpos
      rw [if_pos hL]
      exact ih _ _ hlt htn hL (by omega)
    · rw [if_neg hL]
      by_cases hR : target - subtotal v (2 * index + 1) < subtotal v (2 * index + 2)
      · have hpos : 0 < subtotal v (2 * index + 2) := by omega
        have hlt := subtotal_lt_length hpos
        rw [if_pos hR]
        exact ih _ _ hlt (by omega) hR (by omega)
      · rw [if_neg hR]
        refine ⟨index, target - subtotal v (2 * index + 1) - subtotal v (2 * index + 2),
          rfl, hidx, ?_, ?_⟩
        · have h2 : 0 ≤ subtotal v (2 * index + 2) := valid_subtotal_nonneg hv _
          omega
        · unfold getWeight
          rw [subtotal_eq_getD] at htu
          omega

end WeightedTree

namespace WeightedTree

/-- C4: on a valid weighted tree, `sample` returns `NoItem` exactly on the
empty tree, `AllWeightsZero` exactly on a non-empty tree with zero grand
total, and otherwise, for any draw in `[0, total)`, the left-first descent
returns an index `i` with the remaining draw in `[0, ownWeight(i))` — in
particular an index whose own weight is strictly positive. -/
theorem c4_sample_correct (v : List Int) (draw : Int) (hv : valid v) :
    (sample v draw = .err .noItem ↔ v = []) ∧
    (sample v draw = .err .allWeightsZero ↔ v ≠ [] ∧ v.getD 0 0 = 0) ∧
    (0 < v.getD 0 0 → 0 ≤ draw → draw < v.getD 0 0 →
      ∃ i t, sampleLoop v (v.length + 1) draw 0 = some (i, t) ∧
        sample v draw = .ok i ∧ i < v.length ∧
        0 ≤ t ∧ t < getWeight v i ∧ 0 < getWeight v i) := by
  refine ⟨⟨?_, ?_⟩, ⟨?_, ?_⟩, ?_⟩
  · intro h
    by_contra hne
    simp only [sample] at h
    rw [if_neg (by simpa [List.isEmpty_iff] using hne)] at h
    split at h
    · injection h with h1
      cases h1
    · split at h
      · split at h
        · cases h
        · cases h
      · cases h
  · intro h
    subst h
    rfl
  · intro h
    simp only [sample] at h
    by_cases hne : v = []
    · rw [if_pos (by simpa [List.isEmpty_iff] using hne)] at h
      injection h with h1
      cases h1
    · rw [if_neg (by simpa [List.isEmpty_iff] using hne)] at h
      split at h
      · next hz => exact ⟨hne, hz⟩
      · split at h
        · split at h
          · cases h
          · cases h
        · cases h
  · rintro ⟨hne, hz⟩
    simp only [sample]
    rw [if_neg (by simpa [List.isEmpty_iff] using hne), if_pos hz]
  · intro hpos hd0 hdt
    have hne : v ≠ [] := by
      intro he
      subst he
      simp [List.getD] at hpos
    have h0 : 0 < v.length := List.length_pos.mpr hne
    obtain ⟨i, t, hst, hi, ht0, htw⟩ := sampleLoop_spec hv (v.length + 1) 0 draw h0 hd0
      (by rw [subtotal_eq_getD]; exact hdt) (by omega)
    have hsub : t < subtotal v i := by
      have h1 : 0 ≤ subtotal v (2 * i + 1) := valid_subtotal_nonneg hv _
      have h2 : 0 ≤ subtotal v (2 * i + 2) := valid_subtotal_nonneg hv _
      rw [subtotal_eq_getD]
      unfold getWeight at htw
      omega
    refine ⟨i, t, hst, ?_, hi, ht0, htw, by omega⟩
    simp only [sample]
    rw [if_neg (by simpa [List.isEmpty_iff] using hne), if_neg (by omega), hst]
    exact if_pos ⟨ht0, hsub⟩

/-- Witness for C4 at the tree `[12, 1, 2]` (weights `9, 1, 2`) and draw 8. -/
theorem c4_witness :
    ∃ i t, sampleLoop [12, 1, 2] 4 8 0 = some (i, t) ∧
      sample [12, 1, 2] 8 = .ok i ∧ i < List.length [12, 1, 2] ∧
      0 ≤ t ∧ t < getWeight [12, 1, 2] i ∧ 0 < getWeight [12, 1, 2] i := by
  have h := (c4_sample_correct [12, 1, 2] 8 (by unfold valid; decide)).2.2
    (by decide) (by decide) (by decide)
  simpa using h

/-- C6: after a successful construction, `get` returns exactly the input
weight at every position of the input sequence. -/
theorem c6_new_get (MIN MAX : Int) (w v : List Int) (h : new MIN MAX w = Except.ok v)
    (i : Nat) (hi : i < w.length) : get v i = some (w.getD i 0) := by
  have hl : i < v.length := by
    rw [new_length h]
    exact hi
  rw [get_eq_some hl, new_getWeight h i hi]

/-- Witness for C6: building from `[9, 1, 2]` and reading index 1. -/
theorem c6_witness :
    new (-(2 ^ 31) : Int) (2 ^ 31 - 1) [9, 1, 2] = Except.ok [12, 1, 2] ∧
    get [12, 1, 2] 1 = some 1 :=
  ⟨by rfl, c6_new_get (-(2 ^ 31) : Int) (2 ^ 31 - 1) [9, 1, 2] [12, 1, 2]
    (by rfl) 1 (by decide)⟩

/-- C7: a successful `push(w)` followed by `pop()` returns `w` and restores
the subtotals array exactly. -/
theorem c7_push_pop (MIN MAX : Int) (v : List Int) (w : Int) (v2 : List Int)
    (h : push MIN MAX v w = .ok v2) : pop v2 = (some w, v) := by
  simp only [push] at h
  split at h
  · cases h
  · split at h
    · split at h
      · next v3 hup =>
          injection h with h1
          rw [h1] at hup
          obtain ⟨hlen, hfr⟩ := updateLoop_frame v.length _ _ hup
          rw [List.length_append, List.length_singleton] at hlen
          have hlast : v2.getLast? = some w := by
            rw [getLast?_eq_getD (by omega), hlen]
            have he : v.length + 1 - 1 = v.length := by omega
            rw [he, hfr v.length le_rfl, getD_append_last]
          simp only [pop, hlast]
          have hdl : v2.dropLast.length = v.length := by
            rw [List.length_dropLast, hlen]
            omega
          rw [hdl, popLoop_dropLast v.length v2,
            popLoop_inverse v.length _ _ (by simp) hup, List.dropLast_concat]
      · cases h
    · cases h

/-- Witness for C7: pushing 2 onto `[3, 1]` and popping it again. -/
theorem c7_witness : pop [5, 1, 2] = (some 2, [3, 1]) :=
  c7_push_pop (-100) 100 [3, 1] 2 [5, 1, 2]
    (by norm_num [push, updateLoop, checkedAdd])

end WeightedTree

namespace WeightedTree

/-- C5: when `update` or `push` returns a typed error (`InvalidWeight` or
`Overflow`), the subtotals array is exactly the one before the call; and a
construction whose total cannot be represented (all weights individually
representable but their sum exceeding `MAX`) fails with `Overflow` and
yields no structure. -/
theorem c5_error_leaves_state (MIN MAX : Int) :
    (∀ v i wt e s, update MIN MAX v i wt = .err e s → s = v) ∧
    (∀ v wt e s, push MIN MAX v wt = .err e s → s = v) ∧
    (∀ w, 0 ≤ MAX → (∀ x ∈ w, 0 ≤ x ∧ x ≤ MAX) → MAX < sumTo w w.length →
      new MIN MAX w = .error .overflow) := by
  refine ⟨?_, ?_, ?_⟩
  · intro v i wt e s h
    simp only [update] at h
    split at h
    · injection h with h1 h2
      exact h2.symm
    · split at h
      · cases h
      · split at h
        · cases h
        · split at h
          · split at h
            · split at h
              · cases h
              · cases h
            · cases h
          · injection h with h1 h2
            exact h2.symm
  · intro v wt e s h
    simp only [push] at h
    split at h
    · injection h with h1 h2
      exact h2.symm
    · split at h
      · split at h
        · cases h
        · cases h
      · injection h with h1 h2
        exact h2.symm
  · intro w hMAX hb hsum
    cases hres : new MIN MAX w with
    | error e =>
      unfold new at hres
      split at hres
      · next hany =>
          exfalso
          obtain ⟨x, hx, hxlt⟩ := List.any_eq_true.mp hany
          have h0 := (hb x hx).1
          simp only [decide_eq_true_eq] at hxlt
          omega
      · rw [buildLoop_error _ _ _ hres]
    | ok v =>
      exfalso
      by_cases hw : w = []
      · subst hw
        simp only [sumTo, List.length_nil] at hsum
        omega
      · have hroot := new_root hw hres
        have hlen := new_length hres
        have hL : 0 < w.length := List.length_pos.mpr hw
        have hle : v.getD 0 0 ≤ MAX := by
          unfold new at hres
          split at hres
          · cases hres
          · refine buildLoop_le_MAX _ _ _ hres ?_ 0 (by omega)
            intro j hj
            refine (hb _ ?_).2
            rw [List.getD_eq_getElem?_getD, List.getElem?_eq_getElem hj]
            exact List.getElem_mem hj
        omega

/-- Witness for C5: an overflowing `update` and `push` on `[2147483646, 1]`
with `i32` bounds leave the array untouched, and building from
`[2147483647, 2]` overflows. -/
theorem c5_witness :
    ([2147483646, 1] : List Int) = [2147483646, 1] ∧
    ([2147483646, 1] : List Int) = [2147483646, 1] ∧
    new (-(2 ^ 31)) (2 ^ 31 - 1) [2147483647, 2] = Except.error .overflow :=
  ⟨(c5_error_leaves_state (-(2 ^ 31)) (2 ^ 31 - 1)).1 [2147483646, 1] 1 4 .overflow
      [2147483646, 1] (by decide),
   (c5_error_leaves_state (-(2 ^ 31)) (2 ^ 31 - 1)).2.1 [2147483646, 1] 3 .overflow
      [2147483646, 1] (by decide),
   (c5_error_leaves_state (-(2 ^ 31)) (2 ^ 31 - 1)).2.2 [2147483647, 2] (by decide)
      (by decide) (by decide)⟩

/-- C9 counterexample: `get` with an out-of-range index panics
(out-of-bounds indexing) instead of returning a typed error, refuting
"never aborts the process" for out-of-range `get`/`update`. -/
theorem c9_counterexample :
    get [1] 5 = none ∧ update (-100) 100 [1] 5 0 = .panic := by
  constructor
  · decide
  · decide

/-- C9 (amended): every *weight* or *emptiness* validation failure yields a
typed error — `InvalidWeight` for a negative weight in `push`/`update`,
`Overflow` when the pre-check on the total fails, `NoItem` for sampling the
empty tree, `AllWeightsZero` for sampling a zero-total tree, and every
failure of `new` is `InvalidWeight` or `Overflow` — and `get` succeeds on
every in-range index; but `get` and `update` with an out-of-range index
panic instead of returning a typed error. -/
theorem c9_amended (MIN MAX : Int) (v : List Int) (i : Nat) (wt d : Int)
    (ws : List Int) :
    (get v i = none ↔ v.length ≤ i) ∧
    (i < v.length → get v i = some (getWeight v i)) ∧
    (wt < 0 → update MIN MAX v i wt = .err .invalidWeight v) ∧
    (wt < 0 → push MIN MAX v wt = .err .invalidWeight v) ∧
    (v.length ≤ i → 0 ≤ wt → update MIN MAX v i wt = .panic) ∧
    (0 ≤ wt → v ≠ [] → checkedAdd MIN MAX (v.getD 0 0) wt = none →
      push MIN MAX v wt = .err .overflow v) ∧
    (0 ≤ wt → i < v.length → wt - getWeight v i ≠ 0 →
      checkedAdd MIN MAX (v.getD 0 0) (wt - getWeight v i) = none →
      update MIN MAX v i wt = .err .overflow v) ∧
    (v = [] → sample v d = .err .noItem) ∧
    (v ≠ [] → v.getD 0 0 = 0 → sample v d = .err .allWeightsZero) ∧
    (∀ e, new MIN MAX ws = .error e → e = .invalidWeight ∨ e = .overflow) := by
  refine ⟨⟨?_, ?_⟩, ?_, ?_, ?_, ?_, ?_, ?_, ?_, ?_, ?_⟩
  · intro h
    by_contra hc
    rw [get_eq_some (by omega)] at h
    cases h
  · intro h
    exact get_eq_none h
  · intro h
    exact get_eq_some h
  · intro h
    simp only [update]
    rw [if_pos h]
  · intro h
    simp only [push]
    rw [if_pos h]
  · intro hge hwt
    simp only [update]
    rw [if_neg (by omega), get_eq_none hge]
  · intro hwt hne hover
    simp only [push]
    rw [if_neg (by omega)]
    cases v with
    | nil => exact absurd rfl hne
    | cons a tl =>
      have ha : ((a :: tl) : List Int).getD 0 0 = a := rfl
      rw [ha] at hover
      simp only [List.head?_cons, hover, Option.isSome_none]
      simp
  · intro hwt hlen hd hover
    simp only [update, get_eq_some hlen]
    rw [if_neg (by omega), if_neg hd]
    cases v with
    | nil => simp at hlen
    | cons a tl =>
      have ha : ((a :: tl) : List Int).getD 0 0 = a := rfl
      rw [ha] at hover
      simp only [List.head?_cons, hover, Option.isSome_none]
      simp
  · intro h
    subst h
    rfl
  · intro hne hz
    simp only [sample]
    rw [if_neg (by simpa [List.isEmpty_iff] using hne), if_pos hz]
  · intro e h
    unfold new at h
    split at h
    · injection h with h1
      exact Or.inl h1.symm
    · exact Or.inr (buildLoop_error _ _ _ h)

/-- Witness for C9 (amended): in-range `get`, invalid-weight and overflow
errors, out-of-range panic, and the two sampling errors, all at concrete
inputs. -/
theorem c9_witness :
    get [7] 0 = some 7 ∧ push (-100) 100 [7] (-1) = .err .invalidWeight [7] ∧
    update (-100) 100 [7] 3 0 = .panic ∧
    push (-100) 100 [99] 5 = .err .overflow [99] ∧
    sample [0, 0] 3 = .err .allWeightsZero ∧
    (WeightedError.invalidWeight = .invalidWeight ∨
      WeightedError.invalidWeight = .overflow) :=
  ⟨by
    have h := (c9_amended (-100) 100 [7] 0 (-1) 0 []).2.1 (by decide)
    simpa using h,
   (c9_amended (-100) 100 [7] 0 (-1) 0 []).2.2.2.1 (by decide),
   (c9_amended (-100) 100 [7] 3 0 0 []).2.2.2.2.1 (by decide) (by decide),
   (c9_amended (-100) 100 [99] 0 5 0 []).2.2.2.2.2.1 (by decide) (by decide) (by decide),
   (c9_amended (-100) 100 [0, 0] 0 0 3 []).2.2.2.2.2.2.2.2.1 (by decide) (by decide),
   (c9_amended (-100) 100 [] 0 0 0 [1, -1]).2.2.2.2.2.2.2.2.2 .invalidWeight (by rfl)⟩

end WeightedTree

namespace WeightedTree

/-- C10: on a valid tree, once the pre-check on the grand total has passed,
the checked additions into `subtotals[index]` and its ancestors cannot fail,
because every subtotal is bounded by the root total; hence `push`, and
`update` at an in-range index, never panic (the only panics modelled are the
`unwrap`s after the pre-check and out-of-range indexing). -/
theorem c10_unwrap_no_panic (MIN MAX : Int) (v : List Int) (i : Nat) (wt : Int)
    (hMIN : MIN ≤ 0) (hv : valid v) :
    push MIN MAX v wt ≠ .panic ∧ (i < v.length → update MIN MAX v i wt ≠ .panic) := by
  constructor
  · simp only [push]
    split
    · simp
    · next hwt =>
        split
        · next hpre =>
            have hok : ∃ v2, updateLoop MIN MAX wt (v ++ [wt]) v.length = some v2 := by
              cases v with
              | nil => exact ⟨[wt], by simp [updateLoop]⟩
              | cons a tl =>
                simp only [List.head?_cons] at hpre
                obtain ⟨s, hs⟩ := Option.isSome_iff_exists.mp hpre
                obtain ⟨_, hlo, hhi⟩ := checkedAdd_some hs
                apply updateLoop_ok
                intro p hp
                have hplt := ancs_mem_lt _ p hp
                rw [getD_append_left _ (by simpa using hplt)]
                have hroot : (a :: tl).getD p 0 ≤ (a :: tl).getD 0 0 :=
                  valid_le_root hv (by simpa using hplt)
                have hnn : 0 ≤ (a :: tl).getD p 0 := valid_getD_nonneg hv p
                have ha : ((a :: tl) : List Int).getD 0 0 = a := rfl
                constructor
                · omega
                · rw [ha] at hroot
                  omega
            obtain ⟨v2, hv2⟩ := hok
            rw [hv2]
            simp
        · simp
  · intro hlen
    simp only [update, get_eq_some hlen]
    split
    · simp
    · next hwt =>
        split
        · simp
        · next hd =>
            cases v with
            | nil => simp at hlen
            | cons a tl =>
              simp only [List.head?_cons]
              have ha : ((a :: tl) : List Int).getD 0 0 = a := rfl
              have hroot0 : (a :: tl).getD i 0 ≤ a := by
                have h := valid_le_root hv hlen
                rwa [ha] at h
              have hst1 : 0 ≤ subtotal (a :: tl) (2 * i + 1) := valid_subtotal_nonneg hv _
              have hst2 : 0 ≤ subtotal (a :: tl) (2 * i + 2) := valid_subtotal_nonneg hv _
              have hgw : getWeight (a :: tl) i
                  = (a :: tl).getD i 0 - subtotal (a :: tl) (2 * i + 1)
                    - subtotal (a :: tl) (2 * i + 2) := rfl
              split
              · next hpre =>
                  obtain ⟨s, hs⟩ := Option.isSome_iff_exists.mp hpre
                  obtain ⟨_, hlo, hhi⟩ := checkedAdd_some hs
                  have hc1 : checkedAdd MIN MAX ((a :: tl).getD i 0)
                      (wt - getWeight (a :: tl) i)
                      = some ((a :: tl).getD i 0 + (wt - getWeight (a :: tl) i)) := by
                    apply checkedAdd_eq_some
                    · omega
                    · omega
                  simp only [hc1]
                  have hok : ∃ v2, updateLoop MIN MAX (wt - getWeight (a :: tl) i)
                      ((a :: tl).set i ((a :: tl).getD i 0 + (wt - getWeight (a :: tl) i)))
                        i = some v2 := by
                    apply updateLoop_ok
                    intro p hp
                    have hplt := ancs_mem_lt _ p hp
                    rw [getD_set_ne _ (by omega)]
                    have hroot : (a :: tl).getD p 0 ≤ a := by
                      have h := valid_le_root hv (i := p) (by omega)
                      rwa [ha] at h
                    have hanc : (a :: tl).getD i 0 ≤ (a :: tl).getD p 0 :=
                      valid_anc_le hv i hlen p hp
                    constructor
                    · omega
                    · omega
                  obtain ⟨v2, hv2⟩ := hok
                  simp only [hv2]
                  simp
              · simp

/-- Witness for C10 on the valid tree `[12, 1, 2]` with bounds `[-100, 100]`. -/
theorem c10_witness :
    push (-100) 100 [12, 1, 2] 7 ≠ .panic ∧
    (1 < List.length [12, 1, 2] → update (-100) 100 [12, 1, 2] 1 7 ≠ .panic) :=
  c10_unwrap_no_panic (-100) 100 [12, 1, 2] 1 7 (by decide) (by unfold valid; decide)

end WeightedTree

namespace Reseeding

/-- C1: when a budget-triggered reseed inside `generate` fails, the error is
not propagated: the call completes and its output block is the one produced
by the stale inner generator (only the reseed source's state was consumed by
the failed attempt). -/
theorem c1_reseed_failure_swallowed {σ ρ β : Type} (env : Env σ ρ β)
    (c : ReseedingCore σ ρ) (r : ρ)
    (hbudget : c.bytes_until_reseed ≤ 0)
    (hfail : env.fromRng c.reseeder = (none, r)) :
    (ReseedingCore.generate env c).2 = (env.innerGenerate c.inner).2 ∧
    (ReseedingCore.generate env c).1.inner = (env.innerGenerate c.inner).1 ∧
    (ReseedingCore.generate env c).1.reseeder = r := by
  simp only [ReseedingCore.generate, if_pos hbudget, ReseedingCore.reseedAndGenerate,
    ReseedingCore.reseed, hfail]
  exact ⟨trivial, trivial, trivial⟩

/-- Witness for C1 with a counting reseed source that always fails. -/
theorem c1_witness :
    (ReseedingCore.generate
        (Env.mk (fun (s : Nat) => (s + 1, s * 10)) (fun (r : Nat) => (none, r + 1)) 8)
        (ReseedingCore.mk 5 0 100 (-3))).2
      = ((Env.mk (fun (s : Nat) => (s + 1, s * 10)) (fun (r : Nat) => (none, r + 1)) 8
          : Env Nat Nat Nat).innerGenerate (ReseedingCore.mk 5 0 100 (-3)).inner).2 ∧
    (ReseedingCore.generate
        (Env.mk (fun (s : Nat) => (s + 1, s * 10)) (fun (r : Nat) => (none, r + 1)) 8)
        (ReseedingCore.mk 5 0 100 (-3))).1.inner
      = ((Env.mk (fun (s : Nat) => (s + 1, s * 10)) (fun (r : Nat) => (none, r + 1)) 8
          : Env Nat Nat Nat).innerGenerate (ReseedingCore.mk 5 0 100 (-3)).inner).1 ∧
    (ReseedingCore.generate
        (Env.mk (fun (s : Nat) => (s + 1, s * 10)) (fun (r : Nat) => (none, r + 1)) 8)
        (ReseedingCore.mk 5 0 100 (-3))).1.reseeder = 1 :=
  c1_reseed_failure_swallowed
    (Env.mk (fun (s : Nat) => (s + 1, s * 10)) (fun (r : Nat) => (none, r + 1)) 8)
    (ReseedingCore.mk 5 0 100 (-3)) 1 (by decide) rfl

/-- C2 counterexample: threshold 100, 8-byte blocks, a reseed source that
always fails.  After the failed budget-triggered reseed, the budget is 92 —
`threshold - num_bytes`, not a small negative value — and the immediately
following generate call does not retry the reseed (the reseed source's
state is not consumed again). -/
theorem c2_counterexample :
    (ReseedingCore.generate
        (Env.mk (fun (s : Unit) => (s, s)) (fun (r : Nat) => (none, r + 1)) 8)
        (ReseedingCore.mk () 0 100 0)).1.bytes_until_reseed = 92 ∧
    ¬ (ReseedingCore.generate
        (Env.mk (fun (s : Unit) => (s, s)) (fun (r : Nat) => (none, r + 1)) 8)
        (ReseedingCore.mk () 0 100 0)).1.bytes_until_reseed < 0 ∧
    (ReseedingCore.generate
        (Env.mk (fun (s : Unit) => (s, s)) (fun (r : Nat) => (none, r + 1)) 8)
        ((ReseedingCore.generate
          (Env.mk (fun (s : Unit) => (s, s)) (fun (r : Nat) => (none, r + 1)) 8)
          (ReseedingCore.mk () 0 100 0)).1)).1.reseeder
      = (ReseedingCore.generate
          (Env.mk (fun (s : Unit) => (s, s)) (fun (r : Nat) => (none, r + 1)) 8)
          (ReseedingCore.mk () 0 100 0)).1.reseeder := by
  refine ⟨by decide, by decide, rfl⟩

/-- C2 (amended): in a budget-triggered generate call the budget is set to
`threshold - num_bytes` whether the reseed succeeds *or fails*; on success
the output block comes from the freshly seeded generator, on failure from
the stale one.  A failed reseed is therefore not retried by the next call
unless the fresh budget is already exhausted. -/
theorem c2_budget_after_reseed {σ ρ β : Type} (env : Env σ ρ β)
    (c : ReseedingCore σ ρ) (hbudget : c.bytes_until_reseed ≤ 0) :
    (ReseedingCore.generate env c).1.bytes_until_reseed
      = c.threshold - env.numBytes ∧
    (∀ s r, env.fromRng c.reseeder = (some s, r) →
      (ReseedingCore.generate env c).2 = (env.innerGenerate s).2) ∧
    (∀ r, env.fromRng c.reseeder = (none, r) →
      (ReseedingCore.generate env c).2 = (env.innerGenerate c.inner).2) := by
  refine ⟨?_, ?_, ?_⟩
  · simp only [ReseedingCore.generate, if_pos hbudget, ReseedingCore.reseedAndGenerate,
      ReseedingCore.reseed]
    cases hfr : env.fromRng c.reseeder with
    | mk o r =>
      cases o with
      | some s => rfl
      | none => rfl
  · intro s r hfr
    simp only [ReseedingCore.generate, if_pos hbudget, ReseedingCore.reseedAndGenerate,
      ReseedingCore.reseed, hfr]
  · intro r hfr
    simp only [ReseedingCore.generate, if_pos hbudget, ReseedingCore.reseedAndGenerate,
      ReseedingCore.reseed, hfr]

/-- Witness for the amended C2 with a failing reseed source: the budget
afterwards is `100 - 8 = 92`. -/
theorem c2_witness :
    (ReseedingCore.generate
        (Env.mk (fun (s : Unit) => (s, s)) (fun (r : Nat) => (none, r + 1)) 8)
        (ReseedingCore.mk () 0 100 0)).1.bytes_until_reseed
      = (ReseedingCore.mk () (0 : Nat) 100 0).threshold
        - (Env.mk (fun (s : Unit) => (s, s)) (fun (r : Nat) => (none, r + 1)) 8
            : Env Unit Nat Unit).numBytes :=
  (c2_budget_after_reseed
    (Env.mk (fun (s : Unit) => (s, s)) (fun (r : Nat) => (none, r + 1)) 8)
    (ReseedingCore.mk () 0 100 0) (by decide)).1

/-- C8: cloning a reseeding core duplicates the inner generator, reseed
source and threshold but zeroes the remaining budget, so the clone's very
first generate call takes the reseed path before producing output; after a
successful reseed the clone's first block comes from the freshly seeded
generator. -/
theorem c8_clone_semantics {σ ρ β : Type} (env : Env σ ρ β) (c : ReseedingCore σ ρ) :
    (c.clone.inner = c.inner ∧ c.clone.reseeder = c.reseeder ∧
      c.clone.threshold = c.threshold ∧ c.clone.bytes_until_reseed = 0) ∧
    ReseedingCore.generate env c.clone = ReseedingCore.reseedAndGenerate env c.clone ∧
    (∀ s r, env.fromRng c.reseeder = (some s, r) →
      (ReseedingCore.generate env c.clone).2 = (env.innerGenerate s).2 ∧
      (ReseedingCore.generate env c.clone).1.bytes_until_reseed
        = c.threshold - env.numBytes) := by
  refine ⟨⟨rfl, rfl, rfl, rfl⟩, ?_, ?_⟩
  · simp only [ReseedingCore.generate, ReseedingCore.clone]
    rw [if_pos le_rfl]
  · intro s r hfr
    constructor
    · simp only [ReseedingCore.generate, ReseedingCore.clone, ReseedingCore.reseedAndGenerate,
        ReseedingCore.reseed]
      rw [if_pos le_rfl]
      simp only [hfr]
    · simp only [ReseedingCore.generate, ReseedingCore.clone, ReseedingCore.reseedAndGenerate,
        ReseedingCore.reseed]
      rw [if_pos le_rfl]
      simp only [hfr]

/-- Witness for C8 with a succeeding reseed source: the clone's first block
is generated from the fresh seed 42, not from the duplicated inner state 5. -/
theorem c8_witness :
    (ReseedingCore.generate
        (Env.mk (fun (s : Nat) => (s + 1, s * 10)) (fun (r : Nat) => (some 42, r + 1)) 8)
        (ReseedingCore.mk 5 0 100 77).clone).2
      = ((Env.mk (fun (s : Nat) => (s + 1, s * 10)) (fun (r : Nat) => (some 42, r + 1)) 8
          : Env Nat Nat Nat).innerGenerate 42).2 ∧
    (ReseedingCore.generate
        (Env.mk (fun (s : Nat) => (s + 1, s * 10)) (fun (r : Nat) => (some 42, r + 1)) 8)
        (ReseedingCore.mk 5 0 100 77).clone).1.bytes_until_reseed
      = (ReseedingCore.mk 5 (0 : Nat) 100 77).threshold
        - (Env.mk (fun (s : Nat) => (s + 1, s * 10)) (fun (r : Nat) => (some 42, r + 1)) 8
            : Env Nat Nat Nat).numBytes :=
  (c8_clone_semantics
    (Env.mk (fun (s : Nat) => (s + 1, s * 10)) (fun (r : Nat) => (some 42, r + 1)) 8)
    (ReseedingCore.mk 5 0 100 77)).2.2 42 1 rfl

end Reseeding

namespace Trng

/-- C3 counterexample: with the 64 KiB threshold, a `fill_bytes` of exactly
65536 bytes leaves the budget at 0 — the cumulative requested bytes have
*reached* the threshold and the budget is non-positive — yet the next
`next_u32` call does not attempt a reseed: the OS-entropy stream position
stays 0, because the check is `bytes_until_reseed < 0`, not `≤ 0`. -/
theorem c3_counterexample :
    (fillBytes (Env.mk (fun _ => some ()) (fun s => (s, 7)) (fun s => (s, 7)) (fun s _ => s))
        (InnerState.mk () RESEED_THRESHOLD) 0 65536).1.bytes_until_reseed = 0 ∧
    (fillBytes (Env.mk (fun _ => some ()) (fun s => (s, 7)) (fun s => (s, 7)) (fun s _ => s))
        (InnerState.mk () RESEED_THRESHOLD) 0 65536).2 = 0 ∧
    (nextU32 (Env.mk (fun _ => some ()) (fun s => (s, 7)) (fun s => (s, 7)) (fun s _ => s))
        (fillBytes (Env.mk (fun _ => some ()) (fun s => (s, 7)) (fun s => (s, 7)) (fun s _ => s))
          (InnerState.mk () RESEED_THRESHOLD) 0 65536).1
        0).1.2 = 0 := by
  refine ⟨by decide, by decide, by decide⟩

/-- C3 (amended): every generation call (`next_u32`, `next_u64`,
`fill_bytes`) applies the budget check before producing output, and the
check attempts a reseed from OS entropy (consuming one position of the
entropy stream) exactly when the budget is *strictly negative* — that is,
exactly when the cumulative bytes requested since the last reseed strictly
exceed the threshold, which can be one call later than reaching it. -/
theorem c3_reseed_trigger {σ : Type} (env : Env σ) (s : InnerState σ) (os : Nat) (n : Nat) :
    ((reseedCheck env s os (n : Int)).2 = os + 1 ↔ s.bytes_until_reseed < 0) ∧
    ((reseedCheck env s os (n : Int)).2 = os ↔ 0 ≤ s.bytes_until_reseed) ∧
    (0 ≤ s.bytes_until_reseed →
      reseedCheck env s os (n : Int)
        = ({ s with bytes_until_reseed := s.bytes_until_reseed - n }, os)) ∧
    (s.bytes_until_reseed < 0 →
      (reseedCheck env s os (n : Int)).1.bytes_until_reseed = RESEED_THRESHOLD - n) ∧
    (∀ cum : Int, s.bytes_until_reseed = RESEED_THRESHOLD - cum →
      ((reseedCheck env s os (n : Int)).2 = os + 1 ↔ RESEED_THRESHOLD < cum)) ∧
    (nextU32 env s os).1
      = ({ (reseedCheck env s os 4).1 with
          rng := (env.next32 (reseedCheck env s os 4).1.rng).1 },
        (reseedCheck env s os 4).2) ∧
    (nextU64 env s os).1
      = ({ (reseedCheck env s os 8).1 with
          rng := (env.next64 (reseedCheck env s os 8).1.rng).1 },
        (reseedCheck env s os 8).2) ∧
    fillBytes env s os n
      = ({ (reseedCheck env s os (n : Int)).1 with
          rng := env.fill (reseedCheck env s os (n : Int)).1.rng n },
        (reseedCheck env s os (n : Int)).2) := by
  have hsnd : ∀ m : Int, (reseedCheck env s os m).2
      = if s.bytes_until_reseed < 0 then os + 1 else os := by
    intro m
    simp only [reseedCheck, reseed]
    by_cases hb : s.bytes_until_reseed < 0
    · rw [if_pos hb, if_pos hb]
      cases ho : env.os os with
      | some r => rfl
      | none => rfl
    · rw [if_neg hb, if_neg hb]
  refine ⟨?_, ?_, ?_, ?_, ?_, rfl, rfl, rfl⟩
  · rw [hsnd]
    by_cases hb : s.bytes_until_reseed < 0
    · rw [if_pos hb]
      simp [hb]
    · rw [if_neg hb]
      constructor
      · intro h
        omega
      · intro h
        omega
  · rw [hsnd]
    by_cases hb : s.bytes_until_reseed < 0
    · rw [if_pos hb]
      constructor
      · intro h
        omega
      · intro h
        omega
    · rw [if_neg hb]
      simp
      omega
  · intro hb
    simp only [reseedCheck, reseed]
    rw [if_neg (by omega)]
  · intro hb
    simp only [reseedCheck, reseed]
    rw [if_pos hb]
    cases ho : env.os os with
    | some r => rfl
    | none => rfl
  · intro cum hcum
    rw [hsnd]
    by_cases hb : s.bytes_until_reseed < 0
    · rw [if_pos hb]
      constructor
      · intro _
        omega
      · intro _
        rfl
    · rw [if_neg hb]
      constructor
      · intro h
        omega
      · intro h
        omega

/-- Witness for the amended C3: with the budget at `-1` the check reseeds
and resets the budget to `RESEED_THRESHOLD - 4`. -/
theorem c3_witness :
    (reseedCheck (Env.mk (fun _ => some ()) (fun s => (s, 7)) (fun s => (s, 7)) (fun s _ => s))
        (InnerState.mk () (-1)) 0 ((4 : Nat) : Int)).1.bytes_until_reseed
      = RESEED_THRESHOLD - 4 :=
  (c3_reseed_trigger
    (Env.mk (fun _ => some ()) (fun s => (s, 7)) (fun s => (s, 7)) (fun s _ => s))
    (InnerState.mk () (-1)) 0 4).2.2.2.1 (by decide)

end Trng
